import Mathlib

/-!
Shallow embedding of `colorization/visualization.py`: the pixel-accuracy
metric (`_raw_accuracy`), its AUC aggregation (`_auc`), the directory AUC
driver (`raw_accuracy_demo`), learning-curve extraction and smoothing
(`learning_curve_from_log`), the best/worst gallery driver
(`amt_results_demo`), the annealed-mean sweep driver (`annealed_mean_demo`),
and the subplot divider (`_subplot_divider`).

Real-valued numpy arithmetic is modelled over `ℚ`; image arrays are
flattened lists of pixels (the code only ever uses the pixel count and
per-pixel values, never the 2-D layout, in the fragments embedded here).
The Euclidean per-pixel distance comparison `dist <= thresh` is encoded by
the equivalent rational comparison `0 ≤ thresh ∧ dist² ≤ thresh²`.
-/

namespace Colorization

/-- A chrominance pixel: the two non-lightness channels (a, b). -/
abbrev AB : Type := ℚ × ℚ

/-- A perceptual-space (Lab) pixel: lightness plus two chrominance channels. -/
abbrev LabPixel : Type := ℚ × ℚ × ℚ

/-- Embedding of `img[:, :, 1:]`: drop the lightness channel, keep chrominance. -/
def labChroma (img : List LabPixel) : List AB :=
  img.map (fun v => (v.2.1, v.2.2))

/-- Modelled from the spec: the gamut/prior utility (`DEFAULT_CIELAB.bin_ab`
and `DEFAULT_CIELAB.gamut.prior`, defined in `colorization/cielab.py`, which
is not part of the sources here). Per the spec it maps chrominance values to
discrete bin indices with an associated empirical prior probability table,
"both precomputed externally and treated as a fixed read-only resource",
and is injected into the metric "as an immutable shared resource". -/
structure Gamut where
  bin_ab : AB → ℕ
  prior : ℕ → ℚ

/-- Squared Euclidean distance between two chrominance pixels
(`np.linalg.norm(ab_label - ab_pred, axis=2)`, squared). -/
def sqDist (p g : AB) : ℚ :=
  (p.1 - g.1) ^ 2 + (p.2 - g.2) ^ 2

/-- Embedding of `dist <= thresh` for one pixel, encoded over `ℚ` via the squared
comparison (equivalent since the distance is nonnegative). -/
def withinThresh (thresh : ℚ) (p g : AB) : Bool :=
  if 0 ≤ thresh ∧ sqDist p g ≤ thresh ^ 2 then true else false

/-- Embedding of `within_thresh = dist <= thresh`, the per-pixel boolean mask. -/
def withinMask (thresh : ℚ) (ab_pred ab_label : List AB) : List Bool :=
  List.zipWith (withinThresh thresh) ab_pred ab_label

/-- Embedding of `num_within_thresh = np.count_nonzero(within_thresh)`. -/
def numWithinThresh (thresh : ℚ) (ab_pred ab_label : List AB) : ℕ :=
  (withinMask thresh ab_pred ab_label).countP id

/-- Embedding of `pixel_weights = 1 / DEFAULT_CIELAB.gamut.prior[q]` where
`q = DEFAULT_CIELAB.bin_ab(ab_pred)`: the unnormalized inverse-prior
weight of each pixel of the FIRST metric argument. -/
def rawPixelWeights (g : Gamut) (ab_pred : List AB) : List ℚ :=
  ab_pred.map (fun p => 1 / g.prior (g.bin_ab p))

/-- Embedding of `pixel_weights /= pixel_weights.sum()`: the normalized weight map. -/
def pixelWeights (g : Gamut) (ab_pred : List AB) : List ℚ :=
  (rawPixelWeights g ab_pred).map (fun w => w / (rawPixelWeights g ab_pred).sum)

/-- Embedding of `_raw_accuracy(ab_pred, ab_label, thresh, reweigh_classes)`. -/
def rawAccuracy (g : Gamut) (ab_pred ab_label : List AB) (thresh : ℚ)
    (reweigh_classes : Bool) : ℚ :=
  if numWithinThresh thresh ab_pred ab_label = 0 then 0
  else if reweigh_classes then
    ((withinMask thresh ab_pred ab_label).zipWith
      (fun b w => if b then w else 0) (pixelWeights g ab_pred)).sum
  else
    (numWithinThresh thresh ab_pred ab_label : ℚ) / (ab_pred.length : ℚ)

/-- Embedding of `np.arange(start, stop, step)` for rational arguments: the
`⌈(stop - start) / step⌉` values `start + k * step` (positive step;
a nonpositive count yields the empty list, as in numpy). -/
def arange (start stop step : ℚ) : List ℚ :=
  (List.range (⌈(stop - start) / step⌉).toNat).map (fun k => start + k * step)

/-- Embedding of `_auc(ab_pred, ab_label, thresh_min, thresh_max, thresh_step,
reweigh_classes)`: mean of the per-threshold accuracies over the
`np.arange` grid. -/
def auc (g : Gamut) (ab_pred ab_label : List AB)
    (thresh_min thresh_max thresh_step : ℚ) (reweigh_classes : Bool) : ℚ :=
  let thresh := arange thresh_min thresh_max thresh_step
  let aucs := thresh.map (fun t => rawAccuracy g ab_pred ab_label t reweigh_classes)
  aucs.sum / (thresh.length : ℚ)

/-- Embedding of `raw_accuracy_demo(model, image_dir, reweigh_classes)`: for each loaded
image, accumulate `_auc(img_lab[:, :, 1:], img_pred[:, :, 1:], ...)` —
note the ground-truth Lab conversion occupies the first (`ab_pred`)
argument slot and the model prediction the second — then divide by the
number of images. The directory loader and the predictor are opaque
externals, passed in as functions. -/
def rawAccuracyDemo {Img : Type} (g : Gamut)
    (rgb_to_lab : Img → List LabPixel) (predict_color : Img → List LabPixel)
    (imgs : List Img) (reweigh_classes : Bool) : ℚ :=
  let auc_total := imgs.foldl
    (fun acc img => acc +
      auc g (labChroma (rgb_to_lab img)) (labChroma (predict_color img))
        0 151 10 reweigh_classes)
    0
  auc_total / (imgs.length : ℚ)

/-- The matching step of `learning_curve_from_log`: `re.search` plus
`float(m.group(1))`, abstracted as one function from a line to an optional
loss sample (`none` = no match). -/
def extractLosses {Line : Type} (matchLoss : Line → Option ℚ) :
    List Line → List ℚ
  | [] => []
  | line :: rest =>
    match matchLoss line with
    | some loss => loss :: extractLosses matchLoss rest
    | none => extractLosses matchLoss rest

/-- The loop body of the smoothing pass: given the previous smoothed value,
emit `alpha * loss + (1 - alpha) * prev` for each remaining loss. -/
def smoothFrom (alpha prev : ℚ) : List ℚ → List ℚ
  | [] => []
  | loss :: rest =>
    let s := alpha * loss + (1 - alpha) * prev
    s :: smoothFrom alpha s rest

/-- Embedding of `losses_smoothed`: starts as `losses[:1]`, then appends
`smoothing_alpha * loss + (1 - smoothing_alpha) * losses_smoothed[-1]`
for each subsequent loss. -/
def lossesSmoothed (alpha : ℚ) : List ℚ → List ℚ
  | [] => []
  | l0 :: rest => l0 :: smoothFrom alpha l0 rest

/-- The score-ascending comparison used by
`sorted(results.items(), key=itemgetter(1))`. -/
def byScore (a b : String × ℚ) : Prop := a.2 ≤ b.2

instance : DecidableRel byScore := fun a b => inferInstanceAs (Decidable (a.2 ≤ b.2))

instance : IsTotal (String × ℚ) byScore := ⟨fun a b => le_total a.2 b.2⟩

instance : IsTrans (String × ℚ) byScore := ⟨fun _ _ _ => le_trans⟩

/-- Embedding of `sorted(results.items(), key=itemgetter(1))`: stable ascending sort of
the (path, score) entries by score. -/
def sortResults (results : List (String × ℚ)) : List (String × ℚ) :=
  List.insertionSort byScore results

/-- Python `xs[-n:]`: the last `n` elements, except that `n = 0` (the slice
`xs[-0:] = xs[0:]`) yields the whole list. -/
def lastSlice {α : Type} (xs : List α) (n : ℕ) : List α :=
  if n = 0 then xs else xs.drop (xs.length - n)

/-- Embedding of `images_show = list(reversed(images_sorted[:rows * columns_worst] +
images_sorted[-(rows * columns_best):]))` of `amt_results_demo`, where
`images_sorted` lists the paths of the results table in ascending score
order. -/
def imagesShow (results : List (String × ℚ)) (rows columns_best columns_worst : ℕ) :
    List String :=
  let images_sorted := (sortResults results).map Prod.fst
  (images_sorted.take (rows * columns_worst) ++
    lastSlice images_sorted (rows * columns_best)).reverse

/-- Embedding of `amt_results_demo`: after parsing the results table (modelled as the
already-parsed list of (path, score) entries), `assert len(results) >=
rows * (columns_worst + columns_best)` fails fast, otherwise the driver
displays the `images_show` selection. -/
def amtResultsDemo (results : List (String × ℚ))
    (rows columns_best columns_worst : ℕ) : Except String (List String) :=
  if rows * (columns_worst + columns_best) ≤ results.length then
    Except.ok (imagesShow results rows columns_best columns_worst)
  else
    Except.error "assert len(results) >= rows * (columns_worst + columns_best)"

/-- The separator produced by `_subplot_divider`: a dashed figure-wide line
at a horizontal height `y` or a vertical position `x`. -/
inductive DividerLine : Type
  | horizontal (y : ℚ)
  | vertical (x : ℚ)
deriving DecidableEq

/-- Embedding of `_subplot_divider(fig, axes, orientation, n)`: the bounding boxes of the
axes grid are abstracted as functions from the (row, column) index to the
box edges `y0`/`y1`/`x0`/`x1`. Any orientation other than `'horizontal'`
or `'vertical'` raises `ValueError`. -/
def subplotDivider (y0 y1 x0 x1 : ℕ → ℕ → ℚ) (orientation : String) (n : ℕ) :
    Except String DividerLine :=
  if orientation = "horizontal" then
    Except.ok (DividerLine.horizontal ((y1 n 0 + y0 (n + 1) 0) / 2))
  else if orientation = "vertical" then
    Except.ok (DividerLine.vertical ((x1 0 n + x0 0 (n + 1)) / 2))
  else
    Except.error "orientation must be horizontal or vertical"

/-- The slice of model state visible to `annealed_mean_demo`: the scalar
temperature `model.network.decode_q.T` it reads and writes, plus all the
rest of the model, opaque to the driver. -/
structure Model (α : Type) where
  T : ℚ
  rest : α
deriving DecidableEq

/-- The default temperature list `[1, .77, .58, .38, .29, .14, 0]`. -/
def defaultTs : List ℚ := [1, 77/100, 58/100, 38/100, 29/100, 14/100, 0]

/-- One temperature column of the sweep in `annealed_mean_demo`:
`model.network.decode_q.T = t`, then render each image's prediction into
its (row, column) grid cell. -/
def annealedStep {α Img Pred : Type} (predict : ℚ → Img → Pred) (imgs : List Img)
    (st : Model α × List (ℕ × ℕ × Pred)) (ct : ℕ × ℚ) :
    Model α × List (ℕ × ℕ × Pred) :=
  let m := { st.1 with T := ct.2 }
  (m, st.2 ++ imgs.enum.map (fun ri => (ri.1, ct.1, predict m.T ri.2)))

/-- Embedding of `annealed_mean_demo(model, image_dir, ts)`: substitute the default
temperature list when `ts is None`, `assert len(ts) % 2 == 1`, then run
`annealedStep` once per temperature; finally restore the saved
temperature. Returns the post-call model state together with the rendered
(row, column, prediction) cells. The predictor is opaque, abstracted as a
function of the current temperature and the input image. -/
def annealedMeanDemo {α Img Pred : Type} (predict : ℚ → Img → Pred)
    (model : Model α) (imgs : List Img) (ts : Option (List ℚ)) :
    Except String (Model α × List (ℕ × ℕ × Pred)) :=
  let t_orig := model.T
  let tsv := ts.getD defaultTs
  if tsv.length % 2 = 1 then
    let final := tsv.enum.foldl (annealedStep predict imgs) (model, [])
    Except.ok ({ final.1 with T := t_orig }, final.2)
  else
    Except.error "assert len(ts) % 2 == 1"

/-- A synthetic two-bin gamut used to exercise the reweighted metric on
concrete inputs: chrominance pixels with `a ≤ 5` fall in bin 0 (prior
1/10), the others in bin 1 (prior 9/10). -/
def cexGamut : Gamut :=
  ⟨fun p => if p.1 ≤ 5 then 0 else 1, fun q => if q = 0 then 1 / 10 else 9 / 10⟩

/-- A concrete two-pixel Lab image: chrominance (0, 0) and (10, 0). -/
def cexImg : List LabPixel := [(0, 0, 0), (0, 10, 0)]

/-- A concrete predictor: chrominance (6, 0) and (10, 0) for every input,
so its first pixel falls in a different gamut bin than the ground truth
while staying within distance 6 of it. -/
def cexPredict : List LabPixel → List LabPixel := fun _ => [(0, 6, 0), (0, 10, 0)]

/-! ## General lemmas about the embedded definitions -/

theorem withinThresh_symm (τ : ℚ) (p g : AB) : withinThresh τ p g = withinThresh τ g p := by
  have hd : sqDist p g = sqDist g p := by
    simp only [sqDist]
    ring
  simp only [withinThresh, hd]

theorem withinThresh_of_neg {τ : ℚ} (h : τ < 0) (p g : AB) :
    withinThresh τ p g = false := by
  simp only [withinThresh, ite_eq_right_iff]
  intro hc
  exact absurd hc.1 (not_le.mpr h)

theorem numWithinThresh_of_neg {τ : ℚ} (h : τ < 0) :
    ∀ P G : List AB, numWithinThresh τ P G = 0 := by
  intro P
  induction P with
  | nil => intro G; rfl
  | cons p ps ih =>
    intro G
    cases G with
    | nil => rfl
    | cons q gs =>
      simp only [numWithinThresh, withinMask, List.zipWith_cons_cons,
        List.countP_cons, withinThresh_of_neg h, id] at *
      simpa using ih gs

theorem withinMask_length (τ : ℚ) (P G : List AB) :
    (withinMask τ P G).length = min P.length G.length := by
  simp [withinMask]

theorem numWithinThresh_of_all_true {τ : ℚ} {P G : List AB}
    (h : ∀ b ∈ withinMask τ P G, b = true) :
    numWithinThresh τ P G = (withinMask τ P G).length := by
  rw [numWithinThresh, List.countP_eq_length]
  intro b hb
  simpa using h b hb

theorem sum_map_div (l : List ℚ) (d : ℚ) :
    (l.map (fun w => w / d)).sum = l.sum / d := by
  induction l with
  | nil => simp
  | cons x xs ih => simp [ih, add_div]

theorem zipWith_ite_all_true :
    ∀ (bs : List Bool) (ws : List ℚ), (∀ b ∈ bs, b = true) → bs.length = ws.length →
      List.zipWith (fun b w => if b then w else 0) bs ws = ws := by
  intro bs
  induction bs with
  | nil =>
    intro ws _ hl
    cases ws with
    | nil => rfl
    | cons w ws => simp at hl
  | cons b bs ih =>
    intro ws h hl
    cases ws with
    | nil => simp at hl
    | cons w ws =>
      have hb : b = true := h b (List.mem_cons_self b bs)
      subst hb
      simp only [List.zipWith_cons_cons]
      rw [ih ws (fun x hx => h x (List.mem_cons_of_mem _ hx)) (by simpa using hl)]
      simp

theorem rawPixelWeights_length (g : Gamut) (P : List AB) :
    (rawPixelWeights g P).length = P.length := by
  simp [rawPixelWeights]

theorem pixelWeights_length (g : Gamut) (P : List AB) :
    (pixelWeights g P).length = P.length := by
  simp [pixelWeights, rawPixelWeights]

theorem rawPixelWeights_sum_pos (g : Gamut) {P : List AB} (hP : P ≠ [])
    (hprior : ∀ p ∈ P, 0 < g.prior (g.bin_ab p)) :
    0 < (rawPixelWeights g P).sum := by
  apply List.sum_pos
  · intro x hx
    simp only [rawPixelWeights, List.mem_map] at hx
    obtain ⟨p, hp, rfl⟩ := hx
    have := hprior p hp
    positivity
  · simp [rawPixelWeights, hP]

theorem pixelWeights_sum_eq_one (g : Gamut) {P : List AB} (hP : P ≠ [])
    (hprior : ∀ p ∈ P, 0 < g.prior (g.bin_ab p)) :
    (pixelWeights g P).sum = 1 := by
  have hpos := rawPixelWeights_sum_pos g hP hprior
  rw [pixelWeights, sum_map_div, div_self (ne_of_gt hpos)]

/-! ## Claims -/

/-- C2: for every same-shaped chrominance pair and threshold, an empty
within-set (in particular any negative threshold) makes both modes return
0, and otherwise the unweighted result is the within count over the pixel
count, hence 1 when every pixel is within the threshold. -/
theorem claim2_empty_within_and_unweighted_ratio (g : Gamut) (P G : List AB)
    (τ : ℚ) (hlen : P.length = G.length) :
    (numWithinThresh τ P G = 0 →
      rawAccuracy g P G τ false = 0 ∧ rawAccuracy g P G τ true = 0) ∧
    (τ < 0 →
      rawAccuracy g P G τ false = 0 ∧ rawAccuracy g P G τ true = 0) ∧
    (numWithinThresh τ P G ≠ 0 →
      rawAccuracy g P G τ false = (numWithinThresh τ P G : ℚ) / (P.length : ℚ)) ∧
    (P ≠ [] → (∀ b ∈ withinMask τ P G, b = true) →
      rawAccuracy g P G τ false = 1) := by
  refine ⟨fun h => ?_, fun h => ?_, fun h => ?_, fun hP hall => ?_⟩
  · rw [rawAccuracy, if_pos h, rawAccuracy, if_pos h]
    exact ⟨rfl, rfl⟩
  · have h0 := numWithinThresh_of_neg h P G
    rw [rawAccuracy, if_pos h0, rawAccuracy, if_pos h0]
    exact ⟨rfl, rfl⟩
  · rw [rawAccuracy, if_neg h]
    rfl
  · have hcount : numWithinThresh τ P G = P.length := by
      rw [numWithinThresh_of_all_true hall, withinMask_length, hlen, min_self]
    have hne : numWithinThresh τ P G ≠ 0 := by
      rw [hcount]
      simpa using hP
    rw [rawAccuracy, if_neg hne]
    simp only [Bool.false_eq_true, if_false, hcount]
    exact div_self (by exact_mod_cast List.length_pos.mpr hP |>.ne')

/-- C2 witness: a concrete pair where the threshold is negative (result 0
in both modes) and a concrete pair where all pixels are within (unweighted
result 1). -/
theorem claim2_witness :
    (rawAccuracy ⟨fun _ => 0, fun _ => 1⟩ [(0, 0)] [(3, 4)] (-1) false = 0 ∧
      rawAccuracy ⟨fun _ => 0, fun _ => 1⟩ [(0, 0)] [(3, 4)] (-1) true = 0) ∧
    rawAccuracy ⟨fun _ => 0, fun _ => 1⟩ [(0, 0)] [(3, 4)] 5 false = 1 := by
  constructor
  · exact (claim2_empty_within_and_unweighted_ratio _ [(0, 0)] [(3, 4)] (-1) rfl).2.1
      (by norm_num)
  · refine (claim2_empty_within_and_unweighted_ratio _ [(0, 0)] [(3, 4)] 5 rfl).2.2.2
      (by simp) ?_
    intro b hb
    simp only [withinMask, List.zipWith_cons_cons, List.zipWith_nil_right,
      List.mem_singleton] at hb
    subst hb
    simp only [withinThresh, sqDist]
    norm_num

/-- C3: when reweighting is enabled on a nonempty image whose pixels all
have positive bin priors, the normalized pixel-weight map sums to 1 over
the image, and if every pixel is within the threshold the reweighted
accuracy is exactly 1, whatever the bins and priors. -/
theorem claim3_weights_normalized (g : Gamut) (P G : List AB) (τ : ℚ)
    (hP : P ≠ []) (hlen : P.length = G.length)
    (hprior : ∀ p ∈ P, 0 < g.prior (g.bin_ab p)) :
    (pixelWeights g P).sum = 1 ∧
    ((∀ b ∈ withinMask τ P G, b = true) → rawAccuracy g P G τ true = 1) := by
  refine ⟨pixelWeights_sum_eq_one g hP hprior, fun hall => ?_⟩
  have hcount : numWithinThresh τ P G = P.length := by
    rw [numWithinThresh_of_all_true hall, withinMask_length, hlen, min_self]
  have hne : numWithinThresh τ P G ≠ 0 := by
    rw [hcount]
    simpa using hP
  rw [rawAccuracy, if_neg hne, if_pos rfl]
  rw [zipWith_ite_all_true _ _ hall
    (by rw [withinMask_length, hlen, min_self, pixelWeights_length, hlen])]
  exact pixelWeights_sum_eq_one g hP hprior

/-- C3 witness: the 2-bin gamut with equal priors 0.5/0.5 from the spec, a
4-pixel image split evenly between the bins, all pixels within threshold:
the weights sum to 1 and the reweighted accuracy equals 1. -/
theorem claim3_witness :
    (pixelWeights ⟨fun p => if p.1 ≤ 0 then 0 else 1, fun _ => 1 / 2⟩
        [(0, 0), (0, 1), (1, 0), (1, 1)]).sum = 1 ∧
    rawAccuracy ⟨fun p => if p.1 ≤ 0 then 0 else 1, fun _ => 1 / 2⟩
      [(0, 0), (0, 1), (1, 0), (1, 1)] [(0, 0), (0, 0), (0, 0), (0, 0)]
      10 true = 1 := by
  have h := claim3_weights_normalized
    ⟨fun p => if p.1 ≤ 0 then 0 else 1, fun _ => 1 / 2⟩
    [(0, 0), (0, 1), (1, 0), (1, 1)] [(0, 0), (0, 0), (0, 0), (0, 0)] 10
    (by simp) rfl (by intro p _; norm_num)
  refine ⟨h.1, h.2 ?_⟩
  intro b hb
  simp only [withinMask, List.zipWith_cons_cons, List.zipWith_nil_right,
    List.mem_cons, List.mem_singleton, List.not_mem_nil, or_false] at hb
  rcases hb with hb | hb | hb | hb <;>
    (subst hb; simp only [withinThresh, sqDist]; norm_num)

/-- The default AUC threshold grid `np.arange(0, 151, 10)` evaluates to
the 16 thresholds 0, 10, ..., 150. -/
theorem arange_default_grid :
    arange 0 151 10 =
      [0, 10, 20, 30, 40, 50, 60, 70, 80, 90, 100, 110, 120, 130, 140, 150] := by
  have h : (⌈(((151 : ℚ)) - 0) / 10⌉) = 16 := by
    rw [Int.ceil_eq_iff]
    norm_num
  rw [arange, h]
  simp [List.range_succ]
  norm_num

/-- C4: with the default parameters the AUC aggregation sweeps exactly the
16 thresholds 0, 10, ..., 150 and returns the unweighted arithmetic mean
of the 16 per-threshold accuracies computed independently. -/
theorem claim4_auc_is_mean_over_default_grid (g : Gamut) (P G : List AB)
    (rw_classes : Bool) :
    arange 0 151 10 =
      [0, 10, 20, 30, 40, 50, 60, 70, 80, 90, 100, 110, 120, 130, 140, 150] ∧
    auc g P G 0 151 10 rw_classes =
      (([0, 10, 20, 30, 40, 50, 60, 70, 80, 90, 100, 110, 120, 130, 140,
          150] : List ℚ).map
        (fun t => rawAccuracy g P G t rw_classes)).sum / 16 := by
  refine ⟨arange_default_grid, ?_⟩
  simp only [auc, arange_default_grid]
  norm_num

theorem smoothFrom_length (a : ℚ) : ∀ (p : ℚ) (l : List ℚ),
    (smoothFrom a p l).length = l.length := by
  intro p l
  induction l generalizing p with
  | nil => rfl
  | cons x xs ih => simp [smoothFrom, ih]

theorem smoothFrom_getD (a : ℚ) : ∀ (l : List ℚ) (p : ℚ) (i : ℕ), i < l.length →
    (smoothFrom a p l).getD i 0 =
      a * l.getD i 0 +
        (1 - a) * (if i = 0 then p else (smoothFrom a p l).getD (i - 1) 0) := by
  intro l
  induction l with
  | nil => intro p i h; simp at h
  | cons x xs ih =>
    intro p i h
    cases i with
    | zero => simp [smoothFrom]
    | succ j =>
      have hj : j < xs.length := by simpa using h
      have := ih (a * x + (1 - a) * p) j hj
      cases j with
      | zero => simpa [smoothFrom] using this
      | succ k => simpa [smoothFrom] using this

/-- C6: for every nonempty loss list, the smoothed list has the same
length, starts at the first loss, and satisfies
`smoothed[i+1] = alpha * losses[i+1] + (1 - alpha) * smoothed[i]`;
on `[10, 20, 10, 20]` with `alpha = 1/2` it is `[10, 15, 12.5, 16.25]`. -/
theorem claim6_exponential_smoothing (alpha : ℚ) (losses : List ℚ)
    (h : losses ≠ []) :
    (lossesSmoothed alpha losses).length = losses.length ∧
    (lossesSmoothed alpha losses).getD 0 0 = losses.getD 0 0 ∧
    (∀ i, i + 1 < losses.length →
      (lossesSmoothed alpha losses).getD (i + 1) 0 =
        alpha * losses.getD (i + 1) 0 +
          (1 - alpha) * (lossesSmoothed alpha losses).getD i 0) ∧
    lossesSmoothed (1 / 2) [10, 20, 10, 20] = [10, 15, 25 / 2, 65 / 4] := by
  obtain ⟨l0, rest, rfl⟩ : ∃ l0 rest, losses = l0 :: rest := by
    cases losses with
    | nil => exact absurd rfl h
    | cons a l => exact ⟨a, l, rfl⟩
  refine ⟨by simp [lossesSmoothed, smoothFrom_length], by simp [lossesSmoothed], ?_, ?_⟩
  · intro i hi
    have hi' : i < rest.length := by simpa using hi
    have hrec := smoothFrom_getD alpha rest l0 i hi'
    simp only [lossesSmoothed, List.getD_cons_succ]
    rw [hrec]
    cases i with
    | zero => simp [lossesSmoothed]
    | succ k => simp [lossesSmoothed]
  · norm_num [lossesSmoothed, smoothFrom]

/-- C6 witness: the spec example `[10, 20, 10, 20]` with `alpha = 1/2`. -/
theorem claim6_witness :
    lossesSmoothed (1 / 2) [10, 20, 10, 20] = [10, 15, 25 / 2, 65 / 4] :=
  (claim6_exponential_smoothing (1 / 2) [10, 20, 10, 20] (by simp)).2.2.2

theorem extractLosses_append {Line : Type} (m : Line → Option ℚ)
    (xs ys : List Line) :
    extractLosses m (xs ++ ys) = extractLosses m xs ++ extractLosses m ys := by
  induction xs with
  | nil => rfl
  | cons x xs ih =>
    simp only [List.cons_append, extractLosses]
    cases m x with
    | none => exact ih
    | some v => simp [ih]

/-- C7: line-by-line log extraction equals `filterMap`: one sample per
matching line, in file order; the sample count is the matching-line count;
a non-matching line anywhere is skipped with no other effect, and a
matching line contributes exactly its captured value at its position. -/
theorem claim7_log_extraction {Line : Type} (m : Line → Option ℚ)
    (lines pre post : List Line) (l : Line) (v : ℚ) :
    extractLosses m lines = lines.filterMap m ∧
    (extractLosses m lines).length = lines.countP (fun x => (m x).isSome) ∧
    (m l = none →
      extractLosses m (pre ++ l :: post) = extractLosses m (pre ++ post)) ∧
    (m l = some v →
      extractLosses m (pre ++ l :: post) =
        extractLosses m pre ++ v :: extractLosses m post) := by
  have hfm : ∀ ls : List Line, extractLosses m ls = ls.filterMap m := by
    intro ls
    induction ls with
    | nil => rfl
    | cons x xs ih =>
      simp only [extractLosses, List.filterMap_cons]
      cases m x with
      | none => exact ih
      | some v' => simp [ih]
  have hlen : ∀ ls : List Line,
      (extractLosses m ls).length = ls.countP (fun x => (m x).isSome) := by
    intro ls
    induction ls with
    | nil => rfl
    | cons x xs ih =>
      simp only [extractLosses, List.countP_cons]
      cases hx : m x with
      | none => simp [hx, ih]
      | some v' => simp [hx, ih]
  refine ⟨hfm lines, hlen lines, fun hnone => ?_, fun hsome => ?_⟩
  · rw [extractLosses_append, extractLosses_append, extractLosses, hnone]
  · rw [extractLosses_append, extractLosses, hsome]

/-- C7 witness: a 3-line log where the middle line does not match is
extracted as if that line were absent. -/
theorem claim7_witness :
    (fun n : ℕ => if n % 2 = 0 then some (n : ℚ) else none) 1 = none ∧
    extractLosses (fun n : ℕ => if n % 2 = 0 then some (n : ℚ) else none)
        ([0] ++ 1 :: [2]) =
      extractLosses (fun n : ℕ => if n % 2 = 0 then some (n : ℚ) else none)
        ([0] ++ [2]) :=
  ⟨rfl, (claim7_log_extraction (fun n : ℕ => if n % 2 = 0 then some (n : ℚ) else none)
    [] [0] [2] 1 0).2.2.1 rfl⟩

theorem withinMask_symm (τ : ℚ) (P G : List AB) :
    withinMask τ P G = withinMask τ G P :=
  List.zipWith_comm_of_comm _ (withinThresh_symm τ) P G

/-- C9: in unweighted mode the accuracy metric is symmetric in its two
same-shaped image arguments, since it depends only on the symmetric
per-pixel distance. -/
theorem claim9_unweighted_symmetric (g : Gamut) (P G : List AB) (τ : ℚ)
    (hlen : P.length = G.length) :
    rawAccuracy g P G τ false = rawAccuracy g G P τ false := by
  have hmask : numWithinThresh τ P G = numWithinThresh τ G P := by
    rw [numWithinThresh, numWithinThresh, withinMask_symm]
  rw [rawAccuracy, rawAccuracy, hmask, hlen]
  simp only [Bool.false_eq_true, if_false]

/-- C9 witness: a concrete same-shaped pair evaluated both ways. -/
theorem claim9_witness :
    ([((0 : ℚ), (0 : ℚ)), (9, 9)].length = [((1 : ℚ), (0 : ℚ)), (2, 2)].length) ∧
    rawAccuracy ⟨fun _ => 0, fun _ => 1⟩ [(0, 0), (9, 9)] [(1, 0), (2, 2)] 5 false =
      rawAccuracy ⟨fun _ => 0, fun _ => 1⟩ [(1, 0), (2, 2)] [(0, 0), (9, 9)] 5 false :=
  ⟨rfl, claim9_unweighted_symmetric ⟨fun _ => 0, fun _ => 1⟩
    [(0, 0), (9, 9)] [(1, 0), (2, 2)] 5 rfl⟩

theorem annealedStep_foldl_rest {α Img Pred : Type} (predict : ℚ → Img → Pred)
    (imgs : List Img) :
    ∀ (l : List (ℕ × ℚ)) (s : Model α × List (ℕ × ℕ × Pred)),
      (l.foldl (annealedStep predict imgs) s).1.rest = s.1.rest := by
  intro l
  induction l with
  | nil => intro s; rfl
  | cons c cs ih => intro s; rw [List.foldl_cons, ih]; rfl

/-- C10: whenever the annealed-mean sweep driver completes normally, the
returned model state equals the input model state exactly: the
temperature field is restored to its pre-call value and the rest of the
model is untouched. -/
theorem claim10_temperature_restored {α Img Pred : Type}
    (predict : ℚ → Img → Pred) (model : Model α) (imgs : List Img)
    (ts : Option (List ℚ)) (model_after : Model α)
    (cells : List (ℕ × ℕ × Pred))
    (h : annealedMeanDemo predict model imgs ts =
      Except.ok (model_after, cells)) :
    model_after = model := by
  rw [annealedMeanDemo] at h
  by_cases hodd : (ts.getD defaultTs).length % 2 = 1
  · rw [if_pos hodd] at h
    simp only [Except.ok.injEq, Prod.mk.injEq] at h
    rw [← h.1]
    have hrest := annealedStep_foldl_rest predict imgs
      ((ts.getD defaultTs).enum) (model, ([] : List (ℕ × ℕ × Pred)))
    cases model with
    | mk T rest => simp [hrest]
  · rw [if_neg hodd] at h
    exact absurd h (by simp)

/-- C10 witness: a normally-completing concrete run (default temperatures,
no images) returns the model unchanged. -/
theorem claim10_witness :
    (annealedMeanDemo (fun t (_ : Unit) => t) (Model.mk (3 : ℚ) true) [] none =
      Except.ok (Model.mk (3 : ℚ) true, [])) ∧
    Model.mk (3 : ℚ) true = Model.mk (3 : ℚ) true := by
  have hrun : annealedMeanDemo (fun t (_ : Unit) => t) (Model.mk (3 : ℚ) true)
      [] none = Except.ok (Model.mk (3 : ℚ) true, []) := by
    rw [annealedMeanDemo]
    norm_num [defaultTs, annealedStep, List.enum]
  exact ⟨hrun, claim10_temperature_restored (fun t (_ : Unit) => t)
    (Model.mk (3 : ℚ) true) [] none (Model.mk (3 : ℚ) true) [] hrun⟩

/-- C5: on a 10-entry results table with pairwise-distinct scores and
`rows = 2`, `columns_best = 1`, `columns_worst = 1`, the gallery driver
sorts ascending by score (a permutation of the table), every entry of the
first block of 2 scores strictly below all later entries, every entry of
the last block of 2 scores strictly above all earlier entries, and the
displayed selection is exactly the reversal of (2 lowest paths ++ 2
highest paths). -/
theorem claim5_best_worst_selection (results : List (String × ℚ))
    (hlen : results.length = 10)
    (hdist : results.Pairwise (fun a b => a.2 ≠ b.2)) :
    (sortResults results).Perm results ∧
    List.Sorted byScore (sortResults results) ∧
    (∀ x ∈ (sortResults results).take 2, ∀ y ∈ (sortResults results).drop 2,
      x.2 < y.2) ∧
    (∀ x ∈ (sortResults results).take 8, ∀ y ∈ (sortResults results).drop 8,
      x.2 < y.2) ∧
    imagesShow results 2 1 1 =
      (((sortResults results).take 2).map Prod.fst ++
        ((sortResults results).drop 8).map Prod.fst).reverse := by
  have hperm : (sortResults results).Perm results :=
    List.perm_insertionSort byScore results
  have hsorted : List.Sorted byScore (sortResults results) :=
    List.sorted_insertionSort byScore results
  have hne : (sortResults results).Pairwise (fun a b => a.2 ≠ b.2) :=
    (hperm.pairwise_iff (fun h => h.symm)).mpr hdist
  have hlt : (sortResults results).Pairwise (fun a b => a.2 < b.2) :=
    (hsorted.and hne).imp (fun h => lt_of_le_of_ne h.1 h.2)
  have hslen : (sortResults results).length = 10 := hperm.length_eq.trans hlen
  refine ⟨hperm, hsorted, ?_, ?_, ?_⟩
  · exact fun x hx y hy => List.Sorted.rel_of_mem_take_of_mem_drop hlt hx hy
  · exact fun x hx y hy => List.Sorted.rel_of_mem_take_of_mem_drop hlt hx hy
  · simp only [imagesShow, lastSlice, List.length_map, hslen]
    norm_num [List.map_take, List.map_drop]

/-- C5 witness: ten distinctly-scored entries out of order; the selection
is the two highest-scoring paths followed by the two lowest-scoring ones. -/
theorem claim5_witness :
    imagesShow
      [("e", 5), ("b", 2), ("j", 10), ("a", 1), ("g", 7), ("c", 3), ("h", 8),
        ("f", 6), ("i", 9), ("d", 4)] 2 1 1 = ["j", "i", "b", "a"] := by
  have h := (claim5_best_worst_selection
    [("e", 5), ("b", 2), ("j", 10), ("a", 1), ("g", 7), ("c", 3), ("h", 8),
      ("f", 6), ("i", 9), ("d", 4)] rfl
    (by norm_num [List.pairwise_cons])).2.2.2.2
  rw [h]
  norm_num [sortResults, List.insertionSort, List.orderedInsert, byScore]

/-- C8: each precondition violation yields the explicit rejection: an
even-length temperature list for the annealed-mean sweep, a results table
with fewer than `rows * (columns_worst + columns_best)` entries for the
gallery driver, and any orientation other than `"horizontal"` or
`"vertical"` for the subplot divider. -/
theorem claim8_preconditions {α Img Pred : Type} (predict : ℚ → Img → Pred)
    (model : Model α) (imgs : List Img) (ts : List ℚ)
    (results : List (String × ℚ)) (rows columns_best columns_worst : ℕ)
    (y0 y1 x0 x1 : ℕ → ℕ → ℚ) (orientation : String) (n : ℕ) :
    (ts.length % 2 = 0 →
      annealedMeanDemo predict model imgs (some ts) =
        Except.error "assert len(ts) % 2 == 1") ∧
    (results.length < rows * (columns_worst + columns_best) →
      amtResultsDemo results rows columns_best columns_worst =
        Except.error
          "assert len(results) >= rows * (columns_worst + columns_best)") ∧
    (orientation ≠ "horizontal" → orientation ≠ "vertical" →
      subplotDivider y0 y1 x0 x1 orientation n =
        Except.error "orientation must be horizontal or vertical") := by
  refine ⟨fun h => ?_, fun h => ?_, fun h1 h2 => ?_⟩
  · rw [annealedMeanDemo]
    simp only [Option.getD_some]
    rw [if_neg (by omega)]
  · rw [amtResultsDemo, if_neg (not_le.mpr h)]
  · rw [subplotDivider, if_neg h1, if_neg h2]

/-- C8 witness: a 2-temperature sweep, an empty results table with
`rows = 1`, `columns_best = columns_worst = 1`, and orientation
`"diagonal"` are each rejected. -/
theorem claim8_witness :
    (([1, 2] : List ℚ).length % 2 = 0 ∧
      annealedMeanDemo (fun t (_ : Unit) => t) (Model.mk (0 : ℚ) true) []
          (some [1, 2]) =
        Except.error "assert len(ts) % 2 == 1") ∧
    (([] : List (String × ℚ)).length < 1 * (1 + 1) ∧
      amtResultsDemo [] 1 1 1 =
        Except.error
          "assert len(results) >= rows * (columns_worst + columns_best)") ∧
    (("diagonal" : String) ≠ "horizontal" ∧ ("diagonal" : String) ≠ "vertical" ∧
      subplotDivider (fun _ _ => 0) (fun _ _ => 0) (fun _ _ => 0) (fun _ _ => 0)
          "diagonal" 0 =
        Except.error "orientation must be horizontal or vertical") := by
  have h := claim8_preconditions (fun t (_ : Unit) => t) (Model.mk (0 : ℚ) true)
    [] [1, 2] [] 1 1 1 (fun _ _ => 0) (fun _ _ => 0) (fun _ _ => 0)
    (fun _ _ => 0) "diagonal" 0
  exact ⟨⟨rfl, h.1 rfl⟩, ⟨by norm_num, h.2.1 (by norm_num)⟩,
    ⟨by decide, by decide, h.2.2 (by decide) (by decide)⟩⟩

theorem foldl_add_map {Img : Type} (f : Img → ℚ) (l : List Img) :
    ∀ init : ℚ, l.foldl (fun acc x => acc + f x) init = init + (l.map f).sum := by
  induction l with
  | nil => intro init; simp
  | cons x xs ih =>
    intro init
    simp only [List.foldl_cons, List.map_cons, List.sum_cons, ih]
    ring

/-- C1 (amended): in reweighted mode the metric result depends on its
second argument only through the within-threshold mask — the pixel weights
are derived entirely from the first (`ab_pred`) argument slot — and the
directory AUC driver places the ground-truth Lab conversion of each loaded
image in that first slot and the model prediction in the second, so driver
invocations derive their weights from the ground truth. -/
theorem claim1_weights_from_first_slot {Img : Type} (g : Gamut)
    (conv pred : Img → List LabPixel) (imgs : List Img) (rw_classes : Bool)
    (P G G' : List AB) (τ : ℚ)
    (hmask : withinMask τ P G = withinMask τ P G') :
    rawAccuracy g P G τ true = rawAccuracy g P G' τ true ∧
    rawAccuracyDemo g conv pred imgs rw_classes =
      (imgs.map (fun img =>
        auc g (labChroma (conv img)) (labChroma (pred img)) 0 151 10
          rw_classes)).sum / (imgs.length : ℚ) := by
  constructor
  · rw [rawAccuracy, rawAccuracy, numWithinThresh, numWithinThresh, hmask]
  · simp only [rawAccuracyDemo]
    rw [foldl_add_map]
    simp

/-- C1 (amended) witness: with a negative threshold the masks agree, so
the reweighted results agree; and the driver over one image equals the
single ground-truth-first AUC call. -/
theorem claim1_witness :
    withinMask (-1) [((0 : ℚ), (0 : ℚ))] [((1 : ℚ), (0 : ℚ))] =
      withinMask (-1) [((0 : ℚ), (0 : ℚ))] [((2 : ℚ), (0 : ℚ))] ∧
    rawAccuracy cexGamut [(0, 0)] [(1, 0)] (-1) true =
      rawAccuracy cexGamut [(0, 0)] [(2, 0)] (-1) true ∧
    rawAccuracyDemo cexGamut id cexPredict [cexImg] true =
      ([cexImg].map (fun img =>
        auc cexGamut (labChroma (id img)) (labChroma (cexPredict img)) 0 151 10
          true)).sum / (([cexImg] : List (List LabPixel)).length : ℚ) := by
  have hmask : withinMask (-1) [((0 : ℚ), (0 : ℚ))] [((1 : ℚ), (0 : ℚ))] =
      withinMask (-1) [((0 : ℚ), (0 : ℚ))] [((2 : ℚ), (0 : ℚ))] := by
    norm_num [withinMask, withinThresh, sqDist]
  have h := claim1_weights_from_first_slot cexGamut id cexPredict [cexImg] true
    [((0 : ℚ), (0 : ℚ))] [((1 : ℚ), (0 : ℚ))] [((2 : ℚ), (0 : ℚ))] (-1) hmask
  exact ⟨hmask, h.1, h.2⟩

/-- C1 counterexample: on a concrete gamut, image and predictor, the
directory AUC driver equals the AUC computed with the ground truth in the
quantized (first) slot, and differs from the AUC computed with the
model prediction in the quantized slot — so the driver does NOT derive
weights from the predicted chrominance as the claim states. -/
theorem claim1_counterexample :
    rawAccuracyDemo cexGamut id cexPredict [cexImg] true =
      auc cexGamut (labChroma cexImg) (labChroma (cexPredict cexImg))
        0 151 10 true ∧
    rawAccuracyDemo cexGamut id cexPredict [cexImg] true ≠
      auc cexGamut (labChroma (cexPredict cexImg)) (labChroma cexImg)
        0 151 10 true := by
  have h1 : rawAccuracyDemo cexGamut id cexPredict [cexImg] true = 151 / 160 := by
    rw [rawAccuracyDemo]
    norm_num [auc, arange_default_grid, rawAccuracy, numWithinThresh, withinMask,
      withinThresh, sqDist, pixelWeights, rawPixelWeights, labChroma, cexGamut,
      cexImg, cexPredict]
  have h2 : auc cexGamut (labChroma (cexPredict cexImg)) (labChroma cexImg)
      0 151 10 true = 31 / 32 := by
    norm_num [auc, arange_default_grid, rawAccuracy, numWithinThresh, withinMask,
      withinThresh, sqDist, pixelWeights, rawPixelWeights, labChroma, cexGamut,
      cexImg, cexPredict]
  have h3 : auc cexGamut (labChroma cexImg) (labChroma (cexPredict cexImg))
      0 151 10 true = 151 / 160 := by
    norm_num [auc, arange_default_grid, rawAccuracy, numWithinThresh, withinMask,
      withinThresh, sqDist, pixelWeights, rawPixelWeights, labChroma, cexGamut,
      cexImg, cexPredict]
  rw [h1, h2, h3]
  norm_num

end Colorization
